import Mathlib

/-!
Shallow embedding of the license-plate extraction engine
(`extractTextFromImage`, `extractWithPlateRecognizer` and their helpers).

Conventions of the embedding:
* JavaScript numbers are modelled as exact rationals (`ℚ`); every numeric
  operation the engine performs on them (division by 100, multiplication
  by 30, additions, comparisons) is exact on the values that occur here.
* Strings are Lean `String`s; the regex `[^a-zA-Z0-9]` and the upper-casing
  performed by `String.prototype.toUpperCase` are modelled character-wise
  over the ASCII range (the only range the engine's own regexes inspect).
* The OCR engine (Tesseract) and the remote recognizer (Plate Recognizer
  API) are external capabilities; they enter the model as parameters:
  `engine : PassMode → Except String OcrResult` for the per-pass OCR calls
  and `remote : Except String RemoteResponse` for the outcome of the one
  remote HTTP call.  A thrown JS exception is an `Except.error`.
* Sequential `try`/`catch` control flow becomes `Except` plumbing: an
  exception inside the pass loop aborts the loop (there is no per-pass
  `try` in the source), and the outer `catch` rewraps any such error into
  the fixed user-facing message.
-/

namespace Vehicle

/-! ### Characters and JS string primitives -/

/-- ASCII lower-case letter, the `a-z` range of the source regexes. -/
def isAsciiLower (c : Char) : Bool := 97 ≤ c.toNat && c.toNat ≤ 122

/-- ASCII upper-case letter, the `A-Z` range of the source regexes. -/
def isAsciiUpper (c : Char) : Bool := 65 ≤ c.toNat && c.toNat ≤ 90

/-- ASCII digit, the `0-9` range of the source regexes. -/
def isAsciiDigit (c : Char) : Bool := 48 ≤ c.toNat && c.toNat ≤ 57

/-- A character kept by the source's `replace(/[^a-zA-Z0-9]/g, "")`. -/
def isAlnumAscii (c : Char) : Bool :=
  isAsciiLower c || isAsciiUpper c || isAsciiDigit c

/-- `toUpperCase` on one character, restricted to the ASCII range the
engine's data can contain. -/
def jsUpperChar (c : Char) : Char :=
  if isAsciiLower c then Char.ofNat (c.toNat - 32) else c

/-- `String.prototype.toUpperCase`, ASCII fragment. -/
def jsToUpperCase (s : String) : String := ⟨s.data.map jsUpperChar⟩

/-- The cleaning step applied to every local OCR token:
`text.replace(/[^a-zA-Z0-9]/g, "").toUpperCase()`. -/
def normalize (s : String) : String := jsToUpperCase ⟨s.data.filter isAlnumAscii⟩

/-! ### Data model -/

/-- One word-level token returned by a Tesseract pass
(`result.data.words[i]`), carrying its confidence in `[0,100]`. -/
structure OcrWord where
  text : String
  confidence : ℚ
  deriving Repr, DecidableEq

/-- The outcome of one `Tesseract.recognize` call: the full transcription
`result.data.text` plus the word list `result.data.words`. -/
structure OcrResult where
  text : String
  words : List OcrWord
  deriving Repr, DecidableEq

/-- One guess of the remote Plate Recognizer service
(`result.results[i]`), with its score in `[0,1]`. -/
structure PlateGuess where
  plate : String
  score : ℚ
  deriving Repr, DecidableEq

/-- The decoded JSON body of a successful remote call. -/
structure RemoteResponse where
  results : List PlateGuess
  deriving Repr, DecidableEq

/-- A normalized candidate pushed onto `allCandidates`. -/
structure Candidate where
  text : String
  confidence : ℚ
  source : String
  deriving Repr, DecidableEq

/-- The three Tesseract segmentation modes the engine tries. -/
inductive PassMode where
  | auto
  | singleBlock
  | singleLine
  deriving Repr, DecidableEq

/-- The mode's display name, used for the candidate `source` field. -/
def PassMode.name : PassMode → String
  | .auto => "Auto"
  | .singleBlock => "Single Block"
  | .singleLine => "Single Line"

/-- The `configs` array: pass order is Auto, Single Block, Single Line. -/
def configs : List PassMode := [.auto, .singleBlock, .singleLine]

/-- The `filterWords` array of common non-plate words. -/
def filterWords : List String :=
  ["OF", "THE", "STATE", "USA", "GOV", "GOVT", "CALIFORNIA", "TEXAS",
   "FLORIDA", "NEWYORK", "ILLINOIS", "REGISTRATION", "EXPIRES", "LICENSE",
   "PLATE"]

/-- The message of the error thrown by the outer `catch` block. -/
def ocrErrorMsg : String :=
  "Failed to extract text from image. Please enter the plate number manually."

/-! ### Candidate collection (the body of the pass loop) -/

/-- Word-level candidates of one pass: each word is cleaned and kept when
its cleaned length is in `[2,10]`. -/
def wordCandidates (mode : PassMode) (r : OcrResult) : List Candidate :=
  r.words.filterMap fun w =>
    let cleaned := normalize w.text
    if 2 ≤ cleaned.length ∧ cleaned.length ≤ 10 then
      some ⟨cleaned, w.confidence, mode.name⟩
    else none

/-- The extra candidate built from the pass's full transcription, with the
fixed confidence 50 and source `"<mode>-full"`. -/
def fullCandidate (mode : PassMode) (r : OcrResult) : List Candidate :=
  let fullCleaned := normalize r.text
  if 2 ≤ fullCleaned.length ∧ fullCleaned.length ≤ 10 then
    [⟨fullCleaned, 50, mode.name ++ "-full"⟩]
  else []

/-- All candidates one pass contributes, word tokens first, then the
full-text token — the order the loop body pushes them. -/
def passCandidates (mode : PassMode) (r : OcrResult) : List Candidate :=
  wordCandidates mode r ++ fullCandidate mode r

/-- The pass loop: runs the engine once per mode in list order and
accumulates `allCandidates`.  There is no `try` inside the loop, so an
engine error on any pass aborts the remaining iterations. -/
def collectPasses (engine : PassMode → Except String OcrResult) :
    List PassMode → Except String (List Candidate)
  | [] => .ok []
  | m :: ms => do
    let r ← engine m
    let rest ← collectPasses engine ms
    pure (passCandidates m r ++ rest)

/-! ### Scoring and selection -/

/-- `/[A-Z]/.test(text)`. -/
def hasLetters (t : String) : Bool := t.data.any isAsciiUpper

/-- `/[0-9]/.test(text)`. -/
def hasNumbers (t : String) : Bool := t.data.any isAsciiDigit

/-- The score accumulation of the candidate loop, mirroring the sequence
of `score += …` statements. -/
def scoreOf (text : String) (confidence : ℚ) : ℚ :=
  let score : ℚ := 0
  let score := score + confidence / 100 * 30
  let score := score +
    (if 5 ≤ text.length ∧ text.length ≤ 7 then 30
     else if 4 ≤ text.length ∧ text.length ≤ 8 then 20
     else if 3 ≤ text.length ∧ text.length ≤ 9 then 10
     else 0)
  let score := score +
    (if hasLetters text && hasNumbers text then 40
     else if hasLetters text || hasNumbers text then 15
     else 0)
  let score :=
    if hasLetters text && !hasNumbers text && decide (4 < text.length) then
      score - 20
    else score
  score

/-- The two `continue` guards: a candidate is scored only when its text has
length at least 3 and is not a filter word. -/
def survivesFilters (t : String) : Bool :=
  3 ≤ t.length && !(filterWords.contains t)

/-- One iteration of the candidate loop acting on the
`(bestCandidate, bestScore)` pair: skip filtered candidates, otherwise
update exactly when the score strictly exceeds the current best. -/
def scoreStep (best : String × ℚ) (c : Candidate) : String × ℚ :=
  if survivesFilters c.text then
    if scoreOf c.text c.confidence > best.2 then
      (c.text, scoreOf c.text c.confidence)
    else best
  else best

/-- The whole candidate loop, started from `("", 0)`. -/
def runScoring (cs : List Candidate) : String × ℚ := cs.foldl scoreStep ("", 0)

/-- `return bestCandidate || ""` — the selected text. -/
def pickBest (cs : List Candidate) : String := (runScoring cs).1

/-! ### The two entry points -/

/-- `extractWithPlateRecognizer`, after the HTTP call has been resolved to
a decoded `RemoteResponse`: the first guess's plate upper-cased, or the
empty string when the guess list is empty. -/
def extractWithPlateRecognizer (resp : RemoteResponse) : String :=
  match resp.results with
  | g :: _ => jsToUpperCase g.plate
  | [] => ""

/-- The Tesseract fallback section of `extractTextFromImage` together with
the outer `catch`: any error escaping the pass loop is rewrapped into the
fixed `ocrErrorMsg` error; otherwise the best candidate is returned. -/
def extractViaOcr (engine : PassMode → Except String OcrResult) :
    Except String String :=
  match collectPasses engine configs with
  | .error _ => .error ocrErrorMsg
  | .ok cs => .ok (pickBest cs)

/-- Truthiness of `this.plateRecognizerApiKey`: absent or empty keys are
falsy, so the remote branch is not entered. -/
def keyConfigured : Option String → Bool
  | none => false
  | some k => k != ""

/-- `extractTextFromImage`: when a key is configured, try the remote
recognizer first; a truthy (non-empty) remote plate is returned as-is; a
remote error or a falsy plate falls through to the Tesseract multi-pass
branch. -/
def extractTextFromImage (apiKey : Option String)
    (remote : Except String RemoteResponse)
    (engine : PassMode → Except String OcrResult) : Except String String :=
  if keyConfigured apiKey then
    match remote with
    | .ok resp =>
      let plateNumber := extractWithPlateRecognizer resp
      if plateNumber ≠ "" then .ok plateNumber else extractViaOcr engine
    | .error _ => extractViaOcr engine
  else extractViaOcr engine

/-! ### Helper lemmas about characters and `normalize` -/

lemma toNat_ofNat_of_lt {n : Nat} (h : n < 55296) : (Char.ofNat n).toNat = n := by
  unfold Char.ofNat
  split
  · rfl
  · exact absurd (Or.inl h) (by assumption)

lemma jsUpperChar_upper_alnum {c : Char} (h : isAlnumAscii c = true) :
    (isAsciiUpper (jsUpperChar c) || isAsciiDigit (jsUpperChar c)) = true := by
  unfold jsUpperChar
  by_cases hl : isAsciiLower c = true
  · rw [if_pos hl]
    have hc : 97 ≤ c.toNat ∧ c.toNat ≤ 122 := by
      simpa [isAsciiLower, Bool.and_eq_true, decide_eq_true_eq] using hl
    have ht : (Char.ofNat (c.toNat - 32)).toNat = c.toNat - 32 :=
      toNat_ofNat_of_lt (by omega)
    simp only [isAsciiUpper, isAsciiDigit, ht, Bool.or_eq_true, Bool.and_eq_true,
      decide_eq_true_eq]
    omega
  · rw [if_neg hl]
    simpa [isAlnumAscii, Bool.eq_false_iff.mpr hl] using h

lemma normalize_data_upper_alnum (s : String) :
    ∀ c ∈ (Vehicle.normalize s).data, (isAsciiUpper c || isAsciiDigit c) = true := by
  intro c hc
  have hdata : (Vehicle.normalize s).data = (s.data.filter isAlnumAscii).map jsUpperChar := rfl
  rw [hdata] at hc
  rcases List.mem_map.mp hc with ⟨d, hd, rfl⟩
  exact jsUpperChar_upper_alnum (List.of_mem_filter hd)

/-! ### Helper lemmas about the scoring fold -/

/-- The arithmetic value of `scoreOf`, with the accumulation flattened. -/
lemma scoreOf_eq (t : String) (c : ℚ) :
    scoreOf t c = c / 100 * 30
      + (if 5 ≤ t.length ∧ t.length ≤ 7 then 30
         else if 4 ≤ t.length ∧ t.length ≤ 8 then 20
         else if 3 ≤ t.length ∧ t.length ≤ 9 then 10 else 0)
      + (if hasLetters t && hasNumbers t then 40
         else if hasLetters t || hasNumbers t then 15 else 0)
      - (if hasLetters t && !hasNumbers t && decide (4 < t.length) then 20
         else 0) := by
  unfold scoreOf
  split_ifs <;> ring

lemma scoreStep_update {b : String × ℚ} {c : Candidate}
    (h1 : survivesFilters c.text = true)
    (h2 : b.2 < scoreOf c.text c.confidence) :
    scoreStep b c = (c.text, scoreOf c.text c.confidence) := by
  unfold scoreStep
  rw [if_pos h1, if_pos h2]

lemma scoreStep_snd_le (b : String × ℚ) (c : Candidate) : b.2 ≤ (scoreStep b c).2 := by
  unfold scoreStep
  split_ifs with h1 h2
  · exact le_of_lt h2
  · exact le_refl _
  · exact le_refl _

lemma foldl_scoreStep_snd_mono (cs : List Candidate) (b : String × ℚ) :
    b.2 ≤ (cs.foldl scoreStep b).2 := by
  induction cs generalizing b with
  | nil => exact le_refl _
  | cons c cs ih =>
    simp only [List.foldl_cons]
    exact le_trans (scoreStep_snd_le b c) (ih _)

/-- If no surviving candidate in the list beats the running best, the fold
leaves the state unchanged. -/
lemma foldl_scoreStep_of_le (cs : List Candidate) (b : String × ℚ)
    (h : ∀ c ∈ cs, survivesFilters c.text = true →
      scoreOf c.text c.confidence ≤ b.2) :
    cs.foldl scoreStep b = b := by
  induction cs with
  | nil => rfl
  | cons c cs ih =>
    have hstep : scoreStep b c = b := by
      unfold scoreStep
      split_ifs with h1 h2
      · exact absurd h2 (not_lt.mpr (h c (by simp) h1))
      · rfl
      · rfl
    simp only [List.foldl_cons, hstep]
    exact ih fun d hd hs => h d (by simp [hd]) hs

/-- The fold either leaves the state unchanged or lands on some surviving
candidate that strictly beat the initial best score. -/
lemma foldl_scoreStep_cases (cs : List Candidate) (b : String × ℚ) :
    cs.foldl scoreStep b = b ∨
    ∃ c ∈ cs, survivesFilters c.text = true ∧
      cs.foldl scoreStep b = (c.text, scoreOf c.text c.confidence) ∧
      b.2 < scoreOf c.text c.confidence := by
  induction cs generalizing b with
  | nil => exact .inl rfl
  | cons c cs ih =>
    simp only [List.foldl_cons]
    by_cases h1 : survivesFilters c.text = true
    · by_cases h2 : b.2 < scoreOf c.text c.confidence
      · rw [scoreStep_update h1 h2]
        rcases ih (c.text, scoreOf c.text c.confidence) with h | ⟨d, hd, hds, heq, hlt⟩
        · exact .inr ⟨c, by simp, h1, h, h2⟩
        · exact .inr ⟨d, by simp [hd], hds, heq, lt_trans h2 hlt⟩
      · have hstep : scoreStep b c = b := by
          unfold scoreStep
          rw [if_pos h1, if_neg h2]
        rw [hstep]
        rcases ih b with h | ⟨d, hd, hds, heq, hlt⟩
        · exact .inl h
        · exact .inr ⟨d, by simp [hd], hds, heq, hlt⟩
    · have hstep : scoreStep b c = b := by
        unfold scoreStep
        rw [if_neg h1]
      rw [hstep]
      rcases ih b with h | ⟨d, hd, hds, heq, hlt⟩
      · exact .inl h
      · exact .inr ⟨d, by simp [hd], hds, heq, hlt⟩

/-- The final best score dominates the score of every surviving candidate. -/
lemma le_foldl_scoreStep_snd (cs : List Candidate) (b : String × ℚ) (c : Candidate)
    (hc : c ∈ cs) (hs : survivesFilters c.text = true) :
    scoreOf c.text c.confidence ≤ (cs.foldl scoreStep b).2 := by
  induction cs generalizing b with
  | nil => cases hc
  | cons d ds ih =>
    simp only [List.foldl_cons]
    rcases List.mem_cons.mp hc with h | h
    · subst h
      refine le_trans ?_ (foldl_scoreStep_snd_mono ds _)
      unfold scoreStep
      rw [if_pos hs]
      split_ifs with h1
      · exact le_refl _
      · exact not_lt.mp h1
    · exact ih _ h

/-- The first surviving candidate that attains the overall maximum (strictly
above the initial best) is the one the fold returns. -/
lemma foldl_scoreStep_first_max (l₁ l₂ : List Candidate) (c : Candidate)
    (b : String × ℚ)
    (hs : survivesFilters c.text = true)
    (hb : b.2 < scoreOf c.text c.confidence)
    (h₁ : ∀ d ∈ l₁, survivesFilters d.text = true →
      scoreOf d.text d.confidence < scoreOf c.text c.confidence)
    (h₂ : ∀ d ∈ l₂, survivesFilters d.text = true →
      scoreOf d.text d.confidence ≤ scoreOf c.text c.confidence) :
    (l₁ ++ c :: l₂).foldl scoreStep b = (c.text, scoreOf c.text c.confidence) := by
  rw [List.foldl_append]
  have hmid : (l₁.foldl scoreStep b).2 < scoreOf c.text c.confidence := by
    rcases foldl_scoreStep_cases l₁ b with h | ⟨d, hd, hds, heq, _⟩
    · rw [h]; exact hb
    · rw [heq]; exact h₁ d hd hds
  simp only [List.foldl_cons, scoreStep_update hs hmid]
  exact foldl_scoreStep_of_le l₂ _ fun d hd hds => h₂ d hd hds

lemma survives_length {t : String} (h : survivesFilters t = true) :
    3 ≤ t.length ∧ filterWords.contains t = false := by
  simpa [survivesFilters, Bool.and_eq_true, decide_eq_true_eq] using h

/-- Specialization of `foldl_scoreStep_first_max` to a run started from the
initial state, with the winning candidate in front. -/
lemma pickBest_cons_first_max (c : Candidate) (l : List Candidate)
    (hs : survivesFilters c.text = true)
    (hpos : 0 < scoreOf c.text c.confidence)
    (h : ∀ d ∈ l, survivesFilters d.text = true →
      scoreOf d.text d.confidence ≤ scoreOf c.text c.confidence) :
    pickBest (c :: l) = c.text := by
  unfold pickBest runScoring
  have hfm := foldl_scoreStep_first_max [] l c ("", 0) hs hpos (by simp) h
  simp only [List.nil_append] at hfm
  rw [hfm]

lemma foldl_scoreStep_filter (cs : List Candidate) (b : String × ℚ) :
    cs.foldl scoreStep b
      = (cs.filter fun c => survivesFilters c.text).foldl scoreStep b := by
  induction cs generalizing b with
  | nil => rfl
  | cons c cs ih =>
    by_cases h : survivesFilters c.text = true
    · simp only [List.foldl_cons, List.filter_cons, h, if_pos]
      exact ih _
    · have hstep : scoreStep b c = b := by
        unfold scoreStep
        rw [if_neg h]
      simp only [List.foldl_cons, List.filter_cons, h, hstep]
      exact ih b

/-! ### Spec-side scoring terms (verbatim from the specification, §4.3) -/

/-- Confidence term as the spec words it: `(confidence / 100) * 30`. -/
def confidenceTermSpec (c : ℚ) : ℚ := c / 100 * 30

/-- Length term as the spec words it: 30 for length 5–7, else 20 for 4–8,
else 10 for 3–9, else 0. -/
def lengthTermSpec (t : String) : ℚ :=
  if 5 ≤ t.length ∧ t.length ≤ 7 then 30
  else if 4 ≤ t.length ∧ t.length ≤ 8 then 20
  else if 3 ≤ t.length ∧ t.length ≤ 9 then 10
  else 0

/-- Character-mix term as the spec words it: +40 for both classes, +15 for
exactly one, 0 for neither. -/
def mixTermSpec (t : String) : ℚ :=
  if hasLetters t && hasNumbers t then 40
  else if hasLetters t || hasNumbers t then 15
  else 0

/-- All-letters penalty as the spec words it, as an additive term: -20 when
the text has letters, no digits, and length above 4. -/
def allLettersPenaltySpec (t : String) : ℚ :=
  if hasLetters t && !hasNumbers t && decide (4 < t.length) then -20 else 0

lemma lengthTermSpec_congr {t₁ t₂ : String} (h : t₁.length = t₂.length) :
    lengthTermSpec t₁ = lengthTermSpec t₂ := by
  unfold lengthTermSpec
  rw [h]

/-! ### Claim theorems -/

/-- C9: normalization is a pure function that removes every character
outside the ASCII alphanumeric ranges and upper-cases the rest, so every
output character matches `[A-Z0-9]` and the empty input yields the empty
output. -/
theorem normalize_output_upper_alnum :
    (∀ s : String, ∀ c ∈ (normalize s).data,
      (isAsciiUpper c || isAsciiDigit c) = true) ∧
    (∀ s : String,
      (normalize s).data = (s.data.filter isAlnumAscii).map jsUpperChar) ∧
    normalize "" = "" :=
  ⟨fun s => normalize_data_upper_alnum s, fun _ => rfl, rfl⟩

/-- Witness for C9 at the concrete input "ab-1". -/
theorem normalize_output_upper_alnum_witness :
    'A' ∈ (normalize "ab-1").data ∧ (isAsciiUpper 'A' || isAsciiDigit 'A') = true :=
  ⟨by decide, normalize_output_upper_alnum.1 "ab-1" 'A' (by decide)⟩

/-- C4: for every candidate text and confidence, the score equals exactly
the sum of the confidence term `(c/100)*30`, the banded length term, the
character-mix term and the all-letters penalty; as a Lean function of the
pair `(t, c)` it is deterministic and pure by construction. -/
theorem scoreOf_is_sum_of_spec_terms : ∀ (t : String) (c : ℚ),
    scoreOf t c
      = confidenceTermSpec c + lengthTermSpec t + mixTermSpec t
        + allLettersPenaltySpec t := by
  intro t c
  unfold scoreOf confidenceTermSpec lengthTermSpec mixTermSpec allLettersPenaltySpec
  split_ifs <;> ring

/-- C5: candidates whose text fails the length-3 floor or matches the noise
vocabulary are excluded from scoring — deleting them from the candidate
list leaves the scoring fold unchanged — and the returned result is never
such a text: it is empty or has length at least 3 and is not a filter
word, regardless of any confidence values. -/
theorem filtered_candidates_never_returned (cs : List Candidate) :
    runScoring cs = runScoring (cs.filter fun c => survivesFilters c.text) ∧
    (pickBest cs = "" ∨
      (3 ≤ (pickBest cs).length ∧ filterWords.contains (pickBest cs) = false)) := by
  constructor
  · exact foldl_scoreStep_filter cs ("", 0)
  · rcases foldl_scoreStep_cases cs ("", 0) with h | ⟨d, _, hds, heq, _⟩
    · left
      unfold pickBest runScoring
      rw [h]
    · right
      have hd := survives_length hds
      unfold pickBest runScoring
      rw [heq]
      exact hd

/-- C8: when the remote service returns at least one guess, the result is
the first guess's plate string upper-cased character-wise; every character
outside the ASCII lower-case range (punctuation, separators, digits) is
preserved unchanged, and the string is not passed through the normalizer. -/
theorem remote_result_is_uppercased_first_guess
    (resp : RemoteResponse) (g : PlateGuess) (rest : List PlateGuess)
    (h : resp.results = g :: rest) :
    extractWithPlateRecognizer resp = jsToUpperCase g.plate ∧
    (jsToUpperCase g.plate).data = g.plate.data.map jsUpperChar ∧
    (∀ c : Char, isAsciiLower c = false → jsUpperChar c = c) := by
  refine ⟨?_, rfl, ?_⟩
  · unfold extractWithPlateRecognizer
    rw [h]
  · intro c hc
    unfold jsUpperChar
    rw [if_neg (by simp [hc])]

/-- Witness for C8 at the concrete guess "abc-123": the result is exactly
"ABC-123" (separator preserved), which differs from the normalizer's
output on the same input. -/
theorem remote_result_is_uppercased_first_guess_witness :
    extractWithPlateRecognizer ⟨[⟨"abc-123", 9/10⟩]⟩ = jsToUpperCase "abc-123" ∧
    jsToUpperCase "abc-123" = "ABC-123" ∧
    normalize "abc-123" ≠ "ABC-123" :=
  ⟨(remote_result_is_uppercased_first_guess ⟨[⟨"abc-123", 9/10⟩]⟩
      ⟨"abc-123", 9/10⟩ [] rfl).1,
   by rfl, by decide⟩

lemma not_digit_of_upper {c : Char} (h : isAsciiUpper c = true) :
    isAsciiDigit c = false := by
  simp only [isAsciiUpper, Bool.and_eq_true, decide_eq_true_eq] at h
  simp only [isAsciiDigit, Bool.and_eq_true, decide_eq_true_eq,
    Bool.eq_false_iff, ne_eq, not_and]
  omega

/-- C6: for two candidates with equal confidence and equal length, one
containing both an upper-case letter and a digit, the other consisting of
letters only, the mixed candidate's score is strictly higher: it gains the
+40 mix bonus while the letters-only candidate gains +15 and loses another
20 whenever its length exceeds 4. -/
theorem mixed_beats_all_letters (t₁ t₂ : String) (c : ℚ)
    (hlen : t₁.length = t₂.length)
    (hL : hasLetters t₁ = true) (hN : hasNumbers t₁ = true)
    (honly : ∀ ch ∈ t₂.data, isAsciiUpper ch = true) :
    scoreOf t₂ c < scoreOf t₁ c ∧
    scoreOf t₁ c = c / 100 * 30 + lengthTermSpec t₁ + 40 ∧
    scoreOf t₂ c = c / 100 * 30 + lengthTermSpec t₂ + 15
      - (if 4 < t₂.length then 20 else 0) := by
  have hne₂ : t₂.data ≠ [] := by
    rcases List.any_eq_true.mp hL with ⟨ch, hch, _⟩
    intro hnil
    have h1 : 0 < t₁.data.length := List.length_pos.mpr (List.ne_nil_of_mem hch)
    have hdlen : t₁.data.length = t₂.data.length := hlen
    rw [hnil, List.length_nil] at hdlen
    omega
  have hL₂ : hasLetters t₂ = true := by
    rcases List.exists_mem_of_ne_nil t₂.data hne₂ with ⟨ch, hch⟩
    exact List.any_eq_true.mpr ⟨ch, hch, honly ch hch⟩
  have hN₂ : hasNumbers t₂ = false := by
    rw [Bool.eq_false_iff]
    intro hany
    rcases List.any_eq_true.mp hany with ⟨ch, hch, hdig⟩
    rw [not_digit_of_upper (honly ch hch)] at hdig
    cases hdig
  have h₁ : scoreOf t₁ c = c / 100 * 30 + lengthTermSpec t₁ + 40 := by
    rw [scoreOf_eq, hL, hN]
    unfold lengthTermSpec
    norm_num
  have h₂ : scoreOf t₂ c = c / 100 * 30 + lengthTermSpec t₂ + 15
      - (if 4 < t₂.length then 20 else 0) := by
    rw [scoreOf_eq, hL₂, hN₂]
    unfold lengthTermSpec
    by_cases h4 : 4 < t₂.length
    · rw [if_pos h4, decide_eq_true h4]
      norm_num
    · rw [if_neg h4, decide_eq_false h4]
      norm_num
  refine ⟨?_, h₁, h₂⟩
  rw [h₁, h₂, lengthTermSpec_congr hlen]
  split_ifs <;> linarith

/-- Witness for C6 at the concrete pair "AB12C" (mixed) and "ABCDE"
(letters only), confidence 50. -/
theorem mixed_beats_all_letters_witness :
    scoreOf "ABCDE" 50 < scoreOf "AB12C" 50 ∧
    scoreOf "AB12C" 50 = 50 / 100 * 30 + lengthTermSpec "AB12C" + 40 ∧
    scoreOf "ABCDE" 50 = 50 / 100 * 30 + lengthTermSpec "ABCDE" + 15
      - (if 4 < ("ABCDE" : String).length then 20 else 0) :=
  mixed_beats_all_letters "AB12C" "ABCDE" 50 rfl (by decide) (by decide)
    (by decide)

/-- C3 counterexample: the candidate "ABCDEFGHIJ" with confidence 0 passes
both the length filter and the noise filter — a survivor exists — yet the
orchestrator returns the empty string, because the survivor's score is -5
and the selection only replaces the initial best score 0 on a strict
increase. -/
theorem survivor_exists_but_empty_returned :
    survivesFilters "ABCDEFGHIJ" = true ∧
    scoreOf "ABCDEFGHIJ" 0 = -5 ∧
    pickBest [⟨"ABCDEFGHIJ", 0, "Auto"⟩] = "" := by
  have hs : scoreOf "ABCDEFGHIJ" 0 = -5 := by
    rw [scoreOf_eq]
    norm_num +decide
  refine ⟨by decide, hs, ?_⟩
  show (scoreStep ("", 0) ⟨"ABCDEFGHIJ", 0, "Auto"⟩).1 = ""
  unfold scoreStep
  rw [if_pos (show survivesFilters "ABCDEFGHIJ" = true by decide),
    if_neg (show ¬ scoreOf "ABCDEFGHIJ" 0 > (0 : ℚ) by rw [hs]; norm_num)]

/-- C3 amended: the orchestrator returns the text of the first
maximum-scoring survivor whenever some survivor scores strictly above
zero, and returns the empty string exactly when every survivor (if any)
scores at most zero — not exactly when no survivor exists. -/
theorem pickBest_max_positive_survivor (cs : List Candidate) :
    (pickBest cs = "" ↔ ∀ c ∈ cs, survivesFilters c.text = true →
      scoreOf c.text c.confidence ≤ 0) ∧
    (∀ c ∈ cs, survivesFilters c.text = true → 0 < scoreOf c.text c.confidence →
      ∃ d ∈ cs, survivesFilters d.text = true ∧ pickBest cs = d.text ∧
        0 < scoreOf d.text d.confidence ∧
        ∀ e ∈ cs, survivesFilters e.text = true →
          scoreOf e.text e.confidence ≤ scoreOf d.text d.confidence) := by
  have hpart2 : ∀ c ∈ cs, survivesFilters c.text = true →
      0 < scoreOf c.text c.confidence →
      ∃ d ∈ cs, survivesFilters d.text = true ∧ pickBest cs = d.text ∧
        0 < scoreOf d.text d.confidence ∧
        ∀ e ∈ cs, survivesFilters e.text = true →
          scoreOf e.text e.confidence ≤ scoreOf d.text d.confidence := by
    intro c hc hsv hpos
    rcases foldl_scoreStep_cases cs ("", 0) with h | ⟨d, hd, hds, heq, hlt⟩
    · exfalso
      have hle := le_foldl_scoreStep_snd cs ("", 0) c hc hsv
      rw [h] at hle
      exact absurd (lt_of_lt_of_le hpos hle) (lt_irrefl 0)
    · refine ⟨d, hd, hds, ?_, hlt, ?_⟩
      · unfold pickBest runScoring
        rw [heq]
      · intro e he hes
        have hle := le_foldl_scoreStep_snd cs ("", 0) e he hes
        rw [heq] at hle
        exact hle
  refine ⟨⟨?_, ?_⟩, hpart2⟩
  · intro hempty
    by_contra hneg
    push_neg at hneg
    rcases hneg with ⟨c, hc, hsv, hpos⟩
    rcases hpart2 c hc hsv hpos with ⟨d, _, hds, hpick, _, _⟩
    rw [hempty] at hpick
    have h3 := (survives_length hds).1
    rw [← hpick] at h3
    simp [String.length] at h3
  · intro hall
    have hconst := foldl_scoreStep_of_le cs ("", 0)
      (fun c hc hsv => hall c hc hsv)
    unfold pickBest runScoring
    rw [hconst]

/-- Witness for the amended C3 at a single positive-scoring survivor. -/
theorem pickBest_max_positive_survivor_witness :
    ∃ d ∈ [(⟨"ABC123", 92, "Auto"⟩ : Candidate)],
      survivesFilters d.text = true ∧
      pickBest [(⟨"ABC123", 92, "Auto"⟩ : Candidate)] = d.text ∧
      0 < scoreOf d.text d.confidence ∧
      ∀ e ∈ [(⟨"ABC123", 92, "Auto"⟩ : Candidate)],
        survivesFilters e.text = true →
        scoreOf e.text e.confidence ≤ scoreOf d.text d.confidence :=
  (pickBest_max_positive_survivor _).2 ⟨"ABC123", 92, "Auto"⟩ (by simp)
    (by decide) (by rw [scoreOf_eq]; norm_num +decide)

/-- C7: candidates are enumerated in the fixed pass order Auto, Single
Block, Single Line, with word tokens before the full-text token inside each
pass, and the selection keeps the current best unless a later candidate
scores strictly higher, so on exact ties the earliest-discovered candidate
wins. -/
theorem first_max_in_pass_order_wins :
    (∀ (engine : PassMode → Except String OcrResult) (r₁ r₂ r₃ : OcrResult),
      engine .auto = .ok r₁ → engine .singleBlock = .ok r₂ →
      engine .singleLine = .ok r₃ →
      collectPasses engine configs =
        .ok ((wordCandidates .auto r₁ ++ fullCandidate .auto r₁) ++
             ((wordCandidates .singleBlock r₂ ++ fullCandidate .singleBlock r₂) ++
              ((wordCandidates .singleLine r₃ ++ fullCandidate .singleLine r₃) ++
               [])))) ∧
    (∀ (l₁ l₂ : List Candidate) (c : Candidate),
      survivesFilters c.text = true →
      0 < scoreOf c.text c.confidence →
      (∀ d ∈ l₁, survivesFilters d.text = true →
        scoreOf d.text d.confidence < scoreOf c.text c.confidence) →
      (∀ d ∈ l₂, survivesFilters d.text = true →
        scoreOf d.text d.confidence ≤ scoreOf c.text c.confidence) →
      pickBest (l₁ ++ c :: l₂) = c.text) := by
  constructor
  · intro engine r₁ r₂ r₃ h₁ h₂ h₃
    simp [collectPasses, configs, h₁, h₂, h₃, passCandidates, Bind.bind,
      Except.bind, Pure.pure, Except.pure, List.append_assoc]
  · intro l₁ l₂ c hs hpos h₁ h₂
    unfold pickBest runScoring
    rw [foldl_scoreStep_first_max l₁ l₂ c ("", 0) hs hpos h₁ h₂]

/-- Witness for C7: the instantiated pass-order equation for a trivial
engine, and a two-candidate exact tie (both score 85) won by the earlier
candidate. -/
theorem first_max_in_pass_order_wins_witness :
    collectPasses (fun _ => Except.ok (⟨"", []⟩ : OcrResult)) configs =
      .ok ((wordCandidates .auto ⟨"", []⟩ ++ fullCandidate .auto ⟨"", []⟩) ++
           ((wordCandidates .singleBlock ⟨"", []⟩ ++
             fullCandidate .singleBlock ⟨"", []⟩) ++
            ((wordCandidates .singleLine ⟨"", []⟩ ++
              fullCandidate .singleLine ⟨"", []⟩) ++ []))) ∧
    pickBest [⟨"ABC12", 50, "Auto"⟩, ⟨"XYZ34", 50, "Auto"⟩] = "ABC12" := by
  constructor
  · exact first_max_in_pass_order_wins.1 _ ⟨"", []⟩ ⟨"", []⟩ ⟨"", []⟩ rfl rfl rfl
  · have h85a : scoreOf "ABC12" 50 = 85 := by
      rw [scoreOf_eq]
      norm_num +decide
    have h85b : scoreOf "XYZ34" 50 = 85 := by
      rw [scoreOf_eq]
      norm_num +decide
    refine first_max_in_pass_order_wins.2 [] [⟨"XYZ34", 50, "Auto"⟩]
      ⟨"ABC12", 50, "Auto"⟩ (by decide) ?_ (by simp) ?_
    · show (0 : ℚ) < scoreOf "ABC12" 50
      rw [h85a]
      norm_num
    · intro d hd _
      rw [List.mem_singleton] at hd
      subst hd
      show scoreOf "XYZ34" 50 ≤ scoreOf "ABC12" 50
      rw [h85a, h85b]

/-- A failure of the engine on any member of the mode list makes the whole
candidate-collection loop fail. -/
lemma collectPasses_error_of_mem (engine : PassMode → Except String OcrResult)
    (ms : List PassMode) (m : PassMode) (e : String)
    (hm : m ∈ ms) (he : engine m = .error e) :
    ∃ e', collectPasses engine ms = .error e' := by
  induction ms with
  | nil => cases hm
  | cons m₀ ms ih =>
    cases h0 : engine m₀ with
    | error e0 =>
      exact ⟨e0, by simp [collectPasses, h0, Bind.bind, Except.bind]⟩
    | ok r =>
      rcases List.mem_cons.mp hm with rfl | h
      · rw [h0] at he
        cases he
      · rcases ih h with ⟨e', he'⟩
        exact ⟨e', by simp [collectPasses, h0, he', Bind.bind, Except.bind]⟩

/-- C1 counterexample: with an engine that throws on the Auto pass but
produces a perfectly good candidate on the two remaining passes, the
extraction does not process those passes and propagates a wrapped error to
the caller — even though the remaining passes alone would have produced
"ABC123". -/
theorem pass_failure_propagates_counterexample :
    extractTextFromImage none (Except.error "remote down")
      (fun m => if m = PassMode.auto then Except.error "engine crash"
                else Except.ok ⟨"", [⟨"ABC123", 92⟩]⟩)
      = .error ocrErrorMsg ∧
    pickBest (passCandidates .singleBlock ⟨"", [⟨"ABC123", 92⟩]⟩ ++
              passCandidates .singleLine ⟨"", [⟨"ABC123", 92⟩]⟩) = "ABC123" := by
  constructor
  · rfl
  · show pickBest [⟨"ABC123", 92, "Single Block"⟩, ⟨"ABC123", 92, "Single Line"⟩]
      = "ABC123"
    have hpos : (0 : ℚ) < scoreOf "ABC123" 92 := by
      rw [scoreOf_eq]
      norm_num +decide
    refine pickBest_cons_first_max _ _ (by decide) hpos ?_
    intro d hd _
    rw [List.mem_singleton] at hd
    subst hd
    show scoreOf "ABC123" 92 ≤ scoreOf "ABC123" 92
    exact le_refl _

/-- C1 amended: an OCR-engine failure on any configured segmentation pass
is not recovered: the remaining passes are abandoned and
`extractTextFromImage` propagates the fixed wrapped error to the caller
(shown here on the no-API-key path, where the multi-pass branch is always
reached). -/
theorem pass_failure_aborts_and_propagates
    (engine : PassMode → Except String OcrResult)
    (remote : Except String RemoteResponse) (m : PassMode) (e : String)
    (hm : m ∈ configs) (he : engine m = .error e) :
    extractTextFromImage none remote engine = .error ocrErrorMsg := by
  rcases collectPasses_error_of_mem engine configs m e hm he with ⟨e', he'⟩
  show extractViaOcr engine = .error ocrErrorMsg
  unfold extractViaOcr
  rw [he']

/-- Witness for the amended C1: an engine failing only on the last pass. -/
theorem pass_failure_aborts_and_propagates_witness :
    PassMode.singleLine ∈ configs ∧
    extractTextFromImage none (Except.error "x")
      (fun m => if m = PassMode.singleLine then Except.error "boom"
                else Except.ok ⟨"", []⟩)
      = .error ocrErrorMsg :=
  ⟨by decide,
   pass_failure_aborts_and_propagates _ _ PassMode.singleLine "boom"
     (by decide) rfl⟩

/-- C2 counterexample: a remote response with one guess whose plate is the
empty string — a non-empty guess list — does not short-circuit: the
Tesseract branch runs and its candidate "ABC123", not the remote-derived
empty string, is the result. -/
theorem remote_nonempty_not_short_circuited_counterexample :
    0 < (RemoteResponse.mk [⟨"", 9/10⟩]).results.length ∧
    extractWithPlateRecognizer ⟨[⟨"", 9/10⟩]⟩ = "" ∧
    extractTextFromImage (some "key") (Except.ok ⟨[⟨"", 9/10⟩]⟩)
      (fun _ => Except.ok ⟨"", [⟨"ABC123", 92⟩]⟩) = .ok "ABC123" := by
  refine ⟨by decide, rfl, ?_⟩
  show Except.ok (pickBest [⟨"ABC123", 92, "Auto"⟩, ⟨"ABC123", 92, "Single Block"⟩,
    ⟨"ABC123", 92, "Single Line"⟩]) = .ok "ABC123"
  have hpos : (0 : ℚ) < scoreOf "ABC123" 92 := by
    rw [scoreOf_eq]
    norm_num +decide
  have hpick : pickBest [⟨"ABC123", 92, "Auto"⟩, ⟨"ABC123", 92, "Single Block"⟩,
      ⟨"ABC123", 92, "Single Line"⟩] = "ABC123" := by
    refine pickBest_cons_first_max _ _ (by decide) hpos ?_
    intro d hd _
    rcases List.mem_cons.mp hd with rfl | hd
    · exact le_refl _
    · rw [List.mem_singleton] at hd
      subst hd
      exact le_refl _
  rw [hpick]

/-- C2 amended: the remote short-circuit holds whenever the remote call
succeeds with a guess list whose first plate upper-cases to a non-empty
string; the result is that upper-cased plate and does not depend on the
OCR engine at all. -/
theorem remote_short_circuit (k : String) (resp : RemoteResponse)
    (engine : PassMode → Except String OcrResult)
    (hk : k ≠ "") (hres : extractWithPlateRecognizer resp ≠ "") :
    extractTextFromImage (some k) (Except.ok resp) engine
      = .ok (extractWithPlateRecognizer resp) := by
  have hkey : keyConfigured (some k) = true := by
    simp [keyConfigured, hk]
  unfold extractTextFromImage
  rw [hkey]
  simp [hres]

/-- Witness for the amended C2: one usable remote guess short-circuits even
an engine that always fails. -/
theorem remote_short_circuit_witness :
    extractTextFromImage (some "key") (Except.ok ⟨[⟨"abc-123", 9/10⟩]⟩)
      (fun _ => Except.error "no ocr")
      = .ok (extractWithPlateRecognizer ⟨[⟨"abc-123", 9/10⟩]⟩) :=
  remote_short_circuit "key" ⟨[⟨"abc-123", 9/10⟩]⟩ _ (by decide) (by decide)

/-- Every candidate a pass contributes carries a normalized text: only
upper-case ASCII alphanumeric characters, length between 2 and 10. -/
lemma passCandidates_wf (m : PassMode) (r : OcrResult) :
    ∀ c ∈ passCandidates m r,
      (∀ ch ∈ c.text.data, (isAsciiUpper ch || isAsciiDigit ch) = true) ∧
      2 ≤ c.text.length ∧ c.text.length ≤ 10 := by
  intro c hc
  rcases List.mem_append.mp hc with h | h
  · unfold wordCandidates at h
    rcases List.mem_filterMap.mp h with ⟨w, _, hw⟩
    dsimp only at hw
    by_cases hl : 2 ≤ (normalize w.text).length ∧ (normalize w.text).length ≤ 10
    · rw [if_pos hl] at hw
      cases hw
      exact ⟨normalize_data_upper_alnum w.text, hl⟩
    · rw [if_neg hl] at hw
      cases hw
  · unfold fullCandidate at h
    dsimp only at h
    by_cases hl : 2 ≤ (normalize r.text).length ∧ (normalize r.text).length ≤ 10
    · rw [if_pos hl] at h
      rw [List.mem_singleton] at h
      subst h
      exact ⟨normalize_data_upper_alnum r.text, hl⟩
    · rw [if_neg hl] at h
      cases h

/-- Well-formedness of every candidate collected across the pass loop. -/
lemma collectPasses_wf (engine : PassMode → Except String OcrResult) :
    ∀ (ms : List PassMode) (cs : List Candidate),
      collectPasses engine ms = .ok cs →
      ∀ c ∈ cs,
        (∀ ch ∈ c.text.data, (isAsciiUpper ch || isAsciiDigit ch) = true) ∧
        2 ≤ c.text.length ∧ c.text.length ≤ 10 := by
  intro ms
  induction ms with
  | nil =>
    intro cs h c hc
    cases h
    cases hc
  | cons m ms ih =>
    intro cs h c hc
    cases h0 : engine m with
    | error e =>
      rw [collectPasses, h0] at h
      cases h
    | ok r =>
      cases h1 : collectPasses engine ms with
      | error e =>
        rw [collectPasses, h0] at h
        simp [Bind.bind, Except.bind, h1] at h
      | ok rest =>
        rw [collectPasses, h0] at h
        simp only [Bind.bind, Except.bind, h1, Pure.pure, Except.pure,
          Except.ok.injEq] at h
        subst h
        rcases List.mem_append.mp hc with hmem | hmem
        · exact passCandidates_wf m r c hmem
        · exact ih rest h1 c hmem

/-- C10: when the remote path is not taken (key not configured, remote
error, or remote plate upper-casing to the empty string), every non-empty
string returned by `extractTextFromImage` consists only of the characters
A-Z and 0-9 and has length between 3 and 10 inclusive. -/
theorem ocr_result_shape (key : Option String)
    (remote : Except String RemoteResponse)
    (engine : PassMode → Except String OcrResult) (r : String)
    (hpath : keyConfigured key = false ∨ (∃ e, remote = .error e) ∨
      (∃ resp, remote = .ok resp ∧ extractWithPlateRecognizer resp = ""))
    (hr : extractTextFromImage key remote engine = .ok r) (hne : r ≠ "") :
    (∀ ch ∈ r.data, (isAsciiUpper ch || isAsciiDigit ch) = true) ∧
    3 ≤ r.length ∧ r.length ≤ 10 := by
  have hocr : extractViaOcr engine = .ok r := by
    unfold extractTextFromImage at hr
    rcases hpath with h | ⟨e, rfl⟩ | ⟨resp, rfl, hresp⟩
    · rwa [h, if_neg (by simp)] at hr
    · cases hkc : keyConfigured key with
      | false => rwa [hkc, if_neg (by simp)] at hr
      | true => rwa [hkc, if_pos rfl] at hr
    · cases hkc : keyConfigured key with
      | false => rwa [hkc, if_neg (by simp)] at hr
      | true =>
        rw [hkc, if_pos rfl] at hr
        simpa [hresp] using hr
  cases hcol : collectPasses engine configs with
  | error e =>
    rw [extractViaOcr, hcol] at hocr
    cases hocr
  | ok cs =>
    rw [extractViaOcr, hcol] at hocr
    have hpb : pickBest cs = r := by
      injection hocr
    rcases foldl_scoreStep_cases cs ("", 0) with h | ⟨d, hd, hds, heq, _⟩
    · exfalso
      apply hne
      rw [← hpb]
      unfold pickBest runScoring
      rw [h]
    · have hdt : r = d.text := by
        rw [← hpb]
        unfold pickBest runScoring
        rw [heq]
      obtain ⟨hchars, _, h10⟩ := collectPasses_wf engine configs cs hcol d hd
      obtain ⟨h3, _⟩ := survives_length hds
      rw [hdt]
      exact ⟨hchars, h3, h10⟩

/-- Witness for C10: a no-key run returning "XYZ789". -/
theorem ocr_result_shape_witness :
    (∀ ch ∈ ("XYZ789" : String).data, (isAsciiUpper ch || isAsciiDigit ch) = true) ∧
    3 ≤ ("XYZ789" : String).length ∧ ("XYZ789" : String).length ≤ 10 :=
  ocr_result_shape none (Except.error "remote down")
    (fun _ => Except.ok ⟨"", [⟨"XYZ789", 88⟩]⟩) "XYZ789" (Or.inl rfl)
    (by
      show Except.ok (pickBest [⟨"XYZ789", 88, "Auto"⟩,
        ⟨"XYZ789", 88, "Single Block"⟩, ⟨"XYZ789", 88, "Single Line"⟩])
        = .ok "XYZ789"
      have hpos : (0 : ℚ) < scoreOf "XYZ789" 88 := by
        rw [scoreOf_eq]
        norm_num +decide
      have hpick : pickBest [⟨"XYZ789", 88, "Auto"⟩,
          ⟨"XYZ789", 88, "Single Block"⟩, ⟨"XYZ789", 88, "Single Line"⟩]
          = "XYZ789" := by
        refine pickBest_cons_first_max _ _ (by decide) hpos ?_
        intro d hd _
        rcases List.mem_cons.mp hd with rfl | hd
        · exact le_refl _
        · rw [List.mem_singleton] at hd
          subst hd
          exact le_refl _
      rw [hpick])
    (by decide)

end Vehicle
